import Mathlib

/-!
Shallow embedding of the pj-node binary-management subsystem
(`src/binary/version.ts`, `src/binary/platform.ts`, `src/binary/constants.ts`
and the `BinaryManager` orchestrator in `src/binary/manager.ts`), together
with proofs about the resolution, install and update policies.
-/

namespace PjNode

/-! ## Version comparator (`src/binary/version.ts`) -/

/-- Parsed semantic version (interface `ParsedVersion`). -/
structure ParsedVersion where
  major : Nat
  minor : Nat
  patch : Nat
  raw : String
deriving DecidableEq, Repr

/-- `version.replace(/^v/, "")`: drop a single leading lowercase `v`. -/
def stripLeadingV (s : String) : String :=
  match s.data with
  | 'v' :: rest => String.mk rest
  | _ => s

/-- `parseInt(digits, 10)` on a string of decimal digits. -/
def digitsToNat (ds : List Char) : Nat :=
  ds.foldl (fun n c => n * 10 + (c.toNat - '0'.toNat)) 0

/-- Match `^(\d+)\.(\d+)\.(\d+)` as a prefix of the character list,
returning the three captured numbers. -/
def matchThreePart (cs : List Char) : Option (Nat × Nat × Nat) :=
  let p1 := cs.span Char.isDigit
  if p1.1.isEmpty then none else
    match p1.2 with
    | '.' :: r2 =>
      let p2 := r2.span Char.isDigit
      if p2.1.isEmpty then none else
        match p2.2 with
        | '.' :: r4 =>
          let p3 := r4.span Char.isDigit
          if p3.1.isEmpty then none
          else some (digitsToNat p1.1, digitsToNat p2.1, digitsToNat p3.1)
        | _ => none
    | _ => none

/-- `parseVersion`: strip a leading `v`, then match `^(\d+)\.(\d+)\.(\d+)`
as a prefix (trailing characters tolerated); `none` on any failure. -/
def parseVersion (version : String) : Option ParsedVersion :=
  let normalized := stripLeadingV version
  match matchThreePart normalized.data with
  | none => none
  | some (a, b, c) => some ⟨a, b, c, normalized⟩

/-- `parseTargetVersion`: the entire string must match `^(\d+)\.(\d+)$`. -/
def parseTargetVersion (target : String) : Option (Nat × Nat) :=
  let p1 := target.data.span Char.isDigit
  if p1.1.isEmpty then none else
    match p1.2 with
    | '.' :: r2 =>
      let p2 := r2.span Char.isDigit
      if p2.1.isEmpty then none else
        match p2.2 with
        | [] => some (digitsToNat p1.1, digitsToNat p2.1)
        | _ => none
    | _ => none

/-- `PJ_TARGET_VERSION` from `src/binary/constants.ts`. -/
def PJ_TARGET_VERSION : String := "1.11"

/-- `isVersionCompatible`: same major and minor as the target range. -/
def isVersionCompatible (version target : String) : Bool :=
  match parseVersion version, parseTargetVersion target with
  | some p, some t => p.major == t.1 && p.minor == t.2
  | _, _ => false

/-- `compareVersions`: lexicographic difference on (major, minor, patch);
`0` when either side fails to parse. -/
def compareVersions (a b : String) : Int :=
  match parseVersion a, parseVersion b with
  | some pa, some pb =>
    if pa.major ≠ pb.major then (pa.major : Int) - (pb.major : Int)
    else if pa.minor ≠ pb.minor then (pa.minor : Int) - (pb.minor : Int)
    else (pa.patch : Int) - (pb.patch : Int)
  | _, _ => 0

/-- Stable insertion of one element, modelling where JavaScript's stable
`Array.prototype.sort` places an element relative to an already sorted tail:
`x` goes before the first `y` with `cmp x y ≤ 0`. -/
def sortInsert (cmp : String → String → Int) (x : String) : List String → List String
  | [] => [x]
  | y :: ys => if cmp x y ≤ 0 then x :: y :: ys else y :: sortInsert cmp x ys

/-- Stable comparator sort, modelling `array.sort(cmp)` (stable per the
ECMAScript specification, so any stable algorithm yields the same list). -/
def sortByComparator (cmp : String → String → Int) : List String → List String
  | [] => []
  | x :: xs => sortInsert cmp x (sortByComparator cmp xs)

/-- `findHighestCompatibleVersion`: filter to compatible versions, sort
descending by `compareVersions`, return the first element (`null` if none). -/
def findHighestCompatibleVersion (versions : List String) (target : String) : Option String :=
  let compatible := versions.filter (fun v => isVersionCompatible v target)
  if compatible.isEmpty then none
  else (sortByComparator (fun a b => compareVersions b a) compatible).head?

/-! ### Basic facts about the comparator -/

theorem compareVersions_self (a : String) : compareVersions a a = 0 := by
  unfold compareVersions
  cases parseVersion a with
  | none => rfl
  | some pa => simp

theorem compareVersions_antisymm (a b : String) :
    compareVersions a b = -(compareVersions b a) := by
  unfold compareVersions
  cases ha : parseVersion a with
  | none => cases hb : parseVersion b <;> simp
  | some pa =>
    cases hb : parseVersion b with
    | none => simp
    | some pb =>
      by_cases h1 : pa.major = pb.major <;> by_cases h2 : pa.minor = pb.minor <;>
        simp [h1, h2, Ne, eq_comm] <;> omega

theorem compareVersions_trans_nonneg {a b c : String}
    (ha : (parseVersion a).isSome) (hb : (parseVersion b).isSome)
    (hc : (parseVersion c).isSome)
    (hab : 0 ≤ compareVersions a b) (hbc : 0 ≤ compareVersions b c) :
    0 ≤ compareVersions a c := by
  rw [Option.isSome_iff_exists] at ha hb hc
  obtain ⟨pa, ha⟩ := ha
  obtain ⟨pb, hb⟩ := hb
  obtain ⟨pc, hc⟩ := hc
  unfold compareVersions at *
  rw [ha, hb] at hab
  rw [hb, hc] at hbc
  rw [ha, hc]
  by_cases h1 : pa.major = pb.major <;> by_cases h2 : pa.minor = pb.minor <;>
    by_cases h3 : pb.major = pc.major <;> by_cases h4 : pb.minor = pc.minor <;>
      simp [h1, h2, h3, h4] at hab hbc ⊢ <;> omega

theorem compareVersions_trans_neg {a b c : String}
    (ha : (parseVersion a).isSome) (hb : (parseVersion b).isSome)
    (hc : (parseVersion c).isSome)
    (hab : compareVersions a b < 0) (hbc : compareVersions b c < 0) :
    compareVersions a c < 0 := by
  rw [Option.isSome_iff_exists] at ha hb hc
  obtain ⟨pa, ha⟩ := ha
  obtain ⟨pb, hb⟩ := hb
  obtain ⟨pc, hc⟩ := hc
  unfold compareVersions at *
  rw [ha, hb] at hab
  rw [hb, hc] at hbc
  rw [ha, hc]
  by_cases h1 : pa.major = pb.major <;> by_cases h2 : pa.minor = pb.minor <;>
    by_cases h3 : pb.major = pc.major <;> by_cases h4 : pb.minor = pc.minor <;>
      simp [h1, h2, h3, h4] at hab hbc ⊢ <;> omega

theorem isVersionCompatible_parses {v t : String}
    (h : isVersionCompatible v t = true) : (parseVersion v).isSome := by
  unfold isVersionCompatible at h
  cases hv : parseVersion v with
  | none => rw [hv] at h; cases parseTargetVersion t <;> simp at h
  | some pv => simp

/-! ### The head of the descending sort dominates the list -/

theorem sortInsert_ne_nil (cmp : String → String → Int) (x : String) (l : List String) :
    sortInsert cmp x l ≠ [] := by
  cases l with
  | nil => simp [sortInsert]
  | cons y ys =>
    unfold sortInsert
    split <;> simp

theorem sortByComparator_eq_nil (cmp : String → String → Int) (l : List String)
    (h : sortByComparator cmp l = []) : l = [] := by
  cases l with
  | nil => rfl
  | cons x xs =>
    exact absurd h (sortInsert_ne_nil cmp x (sortByComparator cmp xs))

theorem mem_sortInsert (cmp : String → String → Int) (x y : String) (l : List String) :
    y ∈ sortInsert cmp x l ↔ y = x ∨ y ∈ l := by
  induction l with
  | nil => simp [sortInsert]
  | cons z zs ih =>
    unfold sortInsert
    split <;> simp [ih] <;> tauto

theorem mem_sortByComparator (cmp : String → String → Int) (y : String) (l : List String) :
    y ∈ sortByComparator cmp l ↔ y ∈ l := by
  induction l with
  | nil => simp [sortByComparator]
  | cons x xs ih =>
    unfold sortByComparator
    rw [mem_sortInsert]
    simp [ih]

/-- With the descending comparator `fun a b => compareVersions b a`, the head
of the sorted list compares greater than or equal to every list element,
provided every element parses. -/
theorem sortByComparator_head_max :
    ∀ (l : List String), (∀ v ∈ l, (parseVersion v).isSome) →
      ∀ h, (sortByComparator (fun a b => compareVersions b a) l).head? = some h →
        ∀ y ∈ l, 0 ≤ compareVersions h y := by
  intro l
  induction l with
  | nil =>
    intro _ h hh
    simp [sortByComparator] at hh
  | cons x xs ih =>
    intro hall h hh
    have hx : (parseVersion x).isSome := hall x (by simp)
    have hxs : ∀ v ∈ xs, (parseVersion v).isSome := fun v hv => hall v (by simp [hv])
    unfold sortByComparator at hh
    cases hsx : sortByComparator (fun a b => compareVersions b a) xs with
    | nil =>
      have hxsnil : xs = [] := sortByComparator_eq_nil _ _ hsx
      subst hxsnil
      rw [hsx] at hh
      simp [sortInsert] at hh
      subst hh
      intro y hy
      simp at hy
      subst hy
      simp [compareVersions_self]
    | cons z zs =>
      have hz : (parseVersion z).isSome := by
        apply hxs
        have hzmem : z ∈ sortByComparator (fun a b => compareVersions b a) xs := by
          rw [hsx]; simp
        rwa [mem_sortByComparator] at hzmem
      have ihz : ∀ y ∈ xs, 0 ≤ compareVersions z y := by
        apply ih hxs
        rw [hsx]
        rfl
      rw [hsx] at hh
      unfold sortInsert at hh
      split at hh
      · -- `x` inserted at the front, so the head is `x`
        next hcmp =>
        simp at hh
        subst hh
        intro y hy
        rcases List.mem_cons.mp hy with rfl | hy2
        · simp [compareVersions_self]
        · have hxz : 0 ≤ compareVersions x z := by
            have hanti := compareVersions_antisymm z x
            omega
          exact compareVersions_trans_nonneg hx hz (hxs y hy2) hxz (ihz y hy2)
      · -- `x` inserted further in, so the head stays `z`
        next hcmp =>
        simp at hh
        subst hh
        intro y hy
        rcases List.mem_cons.mp hy with rfl | hy2
        · omega
        · exact ihz y hy2

/-! ## Claims C5 and C6 -/

/-- C5: `findHighestCompatibleVersion` returns a maximum (by
`compareVersions`) of the versions compatible with the range, `none` exactly
when no version is compatible; and the two concrete evaluations from the
specification hold. -/
theorem claim_C5_selectHighestCompatible :
    (∀ versions target,
       (findHighestCompatibleVersion versions target = none ↔
         versions.filter (fun v => isVersionCompatible v target) = [])) ∧
    (∀ versions target m, findHighestCompatibleVersion versions target = some m →
       m ∈ versions.filter (fun v => isVersionCompatible v target) ∧
       ∀ v ∈ versions.filter (fun v => isVersionCompatible v target),
         0 ≤ compareVersions m v) ∧
    findHighestCompatibleVersion
      ["1.3.0", "1.4.0", "1.4.1", "1.4.2", "1.5.0", "2.0.0"] "1.4" = some "1.4.2" ∧
    findHighestCompatibleVersion [] "1.4" = none := by
  refine ⟨?_, ?_, by rfl, by rfl⟩
  · intro versions target
    simp only [findHighestCompatibleVersion]
    constructor
    · intro h
      by_cases he : (versions.filter (fun v => isVersionCompatible v target)).isEmpty
      · simpa using he
      · rw [if_neg he] at h
        rw [List.head?_eq_none_iff] at h
        exact sortByComparator_eq_nil _ _ h
    · intro h
      simp [h]
  · intro versions target m h
    simp only [findHighestCompatibleVersion] at h
    by_cases he : (versions.filter (fun v => isVersionCompatible v target)).isEmpty
    · rw [if_pos he] at h
      cases h
    · rw [if_neg he] at h
      have hmem : m ∈ versions.filter (fun v => isVersionCompatible v target) := by
        rw [← mem_sortByComparator (fun a b => compareVersions b a)]
        exact List.mem_of_mem_head? (by rw [h]; rfl)
      have hall : ∀ v ∈ versions.filter (fun v => isVersionCompatible v target),
          (parseVersion v).isSome := by
        intro v hv
        rw [List.mem_filter] at hv
        exact isVersionCompatible_parses hv.2
      exact ⟨hmem, sortByComparator_head_max _ hall m h⟩

/-- C6: `compareVersions` is lexicographic on the (major, minor, patch)
triple; over parse-valid strings it is antisymmetric and transitive with
`compareVersions a a = 0`, and whenever either side fails to parse it
returns `0` rather than raising. -/
theorem claim_C6_compareVersions_weak_order :
    (∀ a b, (parseVersion a = none ∨ parseVersion b = none) → compareVersions a b = 0) ∧
    (∀ a, (parseVersion a).isSome → compareVersions a a = 0) ∧
    (∀ a b, (parseVersion a).isSome → (parseVersion b).isSome →
       compareVersions a b = -(compareVersions b a)) ∧
    (∀ a b c, (parseVersion a).isSome → (parseVersion b).isSome →
       (parseVersion c).isSome →
       compareVersions a b < 0 → compareVersions b c < 0 → compareVersions a c < 0) ∧
    (∀ a b pa pb, parseVersion a = some pa → parseVersion b = some pb →
       (compareVersions a b < 0 ↔
         (pa.major < pb.major ∨ (pa.major = pb.major ∧
           (pa.minor < pb.minor ∨ (pa.minor = pb.minor ∧ pa.patch < pb.patch)))))) := by
  refine ⟨?_, ?_, ?_, ?_, ?_⟩
  · intro a b h
    unfold compareVersions
    rcases h with h | h
    · rw [h]
    · rw [h]
      cases parseVersion a <;> rfl
  · intro a _
    exact compareVersions_self a
  · intro a b _ _
    exact compareVersions_antisymm a b
  · intro a b c ha hb hc
    exact compareVersions_trans_neg ha hb hc
  · intro a b pa pb ha hb
    unfold compareVersions
    rw [ha, hb]
    by_cases h1 : pa.major = pb.major <;> by_cases h2 : pa.minor = pb.minor <;>
      simp [h1, h2] <;> omega

/-! ## Version-output extraction (`BinaryManager.getVersion`)

The manager runs `<binary> --version` and extracts the version with the
JavaScript regular expression `/(?:pj\s+)?(?:version\s+)?v?(\d+\.\d+\.\d+)/i`,
returning capture group 1 of the first match, or `null`. The functions below
implement that search: optional groups are tried greedily (present first),
literals match case-insensitively, and the scan starts at each position in
turn. -/

/-- Case-insensitive literal match: consume `lit` from the front of `cs`. -/
def eatLitCI : List Char → List Char → Option (List Char)
  | [], cs => some cs
  | _ :: _, [] => none
  | l :: ls, c :: cs => if c.toLower = l.toLower then eatLitCI ls cs else none

/-- `\s+`: consume at least one whitespace character (greedy). -/
def eatWs1 (cs : List Char) : Option (List Char) :=
  let p := cs.span Char.isWhitespace
  if p.1.isEmpty then none else some p.2

/-- `(?:<lit>\s+)?`: both alternatives in backtracking order, the greedy
(present) one first. -/
def optLitWs (lit : List Char) (cs : List Char) : List (List Char) :=
  match (eatLitCI lit cs).bind eatWs1 with
  | some cs2 => [cs2, cs]
  | none => [cs]

/-- `v?` (case-insensitive): both alternatives in backtracking order. -/
def optV (cs : List Char) : List (List Char) :=
  match cs with
  | c :: rest => if c.toLower = 'v' then [rest, cs] else [cs]
  | [] => [cs]

/-- `(\d+\.\d+\.\d+)`: the capture group, as a string. -/
def matchDigitsTriple (cs : List Char) : Option String :=
  let p1 := cs.span Char.isDigit
  if p1.1.isEmpty then none else
    match p1.2 with
    | '.' :: r2 =>
      let p2 := r2.span Char.isDigit
      if p2.1.isEmpty then none else
        match p2.2 with
        | '.' :: r4 =>
          let p3 := r4.span Char.isDigit
          if p3.1.isEmpty then none
          else some (String.mk (p1.1 ++ '.' :: p2.1 ++ '.' :: p3.1))
        | _ => none
    | _ => none

/-- Try the whole pattern at one start position. -/
def matchVersionAt (cs : List Char) : Option String :=
  ((optLitWs ['p', 'j'] cs).flatMap fun cs1 =>
    (optLitWs ['v', 'e', 'r', 's', 'i', 'o', 'n'] cs1).flatMap fun cs2 =>
      optV cs2).findSome? matchDigitsTriple

/-- Scan for the first position where the pattern matches. -/
def searchVersion : List Char → Option String
  | [] => matchVersionAt []
  | c :: rest =>
    match matchVersionAt (c :: rest) with
    | some v => some v
    | none => searchVersion rest

/-- The regex extraction applied to a process's standard output. -/
def extractVersion (stdout : String) : Option String :=
  searchVersion stdout.data

/-! ## Platform resolver (`src/binary/platform.ts`) -/

/-- `Platform`: host identifiers and their registry naming counterparts. -/
structure Platform where
  os : String
  arch : String
  pjOs : String
  pjArch : String
deriving DecidableEq, Repr

/-- `detectPlatform`: map `process.platform` and `process.arch` to registry
names; throws `PjBinaryError` (modelled as `Except.error` with the message)
for any unsupported value. -/
def detectPlatform (nodeOs nodeArch : String) : Except String Platform :=
  let osPart : Except String (String × String) :=
    if nodeOs = "darwin" then Except.ok ("darwin", "darwin")
    else if nodeOs = "linux" then Except.ok ("linux", "linux")
    else if nodeOs = "win32" then Except.ok ("win32", "windows")
    else Except.error ("Unsupported operating system: " ++ nodeOs)
  match osPart with
  | Except.error e => Except.error e
  | Except.ok (os, pjOs) =>
    if nodeArch = "x64" then Except.ok ⟨os, "x64", pjOs, "amd64"⟩
    else if nodeArch = "arm64" then Except.ok ⟨os, "arm64", pjOs, "arm64"⟩
    else Except.error ("Unsupported architecture: " ++ nodeArch)

/-- `version.startsWith("v") ? version.slice(1) : version`. -/
def sliceLeadingV (version : String) : String :=
  match version.data with
  | 'v' :: rest => String.mk rest
  | _ => version

/-- `getAssetFilename`: `pj_<version-without-v>_<pjOs>_<pjArch>.tar.gz`. -/
def getAssetFilename (version : String) (p : Platform) : String :=
  "pj_" ++ sliceLeadingV version ++ "_" ++ p.pjOs ++ "_" ++ p.pjArch ++ ".tar.gz"

/-! ## Release data model (`src/api/types.ts` shapes and `parseRelease`) -/

/-- One asset record of the GitHub JSON payload. -/
structure RawAsset where
  name : String
  browser_download_url : String
  size : Nat
  content_type : String
deriving DecidableEq, Repr

/-- One release record of the GitHub JSON payload. -/
structure RawRelease where
  tag_name : String
  name : String
  prerelease : Bool
  assets : List RawAsset
deriving DecidableEq, Repr

/-- `GithubAsset` as exposed by the manager. -/
structure GithubAsset where
  name : String
  downloadUrl : String
  size : Nat
  contentType : String
deriving DecidableEq, Repr

/-- `GithubRelease` as exposed by the manager. -/
structure GithubRelease where
  tagName : String
  version : String
  name : String
  prerelease : Bool
  assets : List GithubAsset
deriving DecidableEq, Repr

/-- `BinaryManager.parseRelease`: shape conversion; `version` is the tag with
a leading `v` removed. -/
def parseRelease (data : RawRelease) : GithubRelease :=
  { tagName := data.tag_name
    version := stripLeadingV data.tag_name
    name := data.name
    prerelease := data.prerelease
    assets := data.assets.map fun a =>
      { name := a.name
        downloadUrl := a.browser_download_url
        size := a.size
        contentType := a.content_type } }

/-! ## The `BinaryManager` orchestrator (`src/binary/manager.ts`)

The manager is modelled as a state machine. The mutable state holds the
in-memory resolved-path cache (`this.cachedBinaryPath`), the persisted
metadata file, the observable behaviour of files on disk, and a clock
counter (each `new Date()` construction consumes one reading from the
world's time line). Everything else the process can observe — environment
variables, `which`/`where` output, HTTP responses, the behaviour of the
downloaded artifact — is a fixed oracle in the `World`. Every operation also
records a trace of the externally visible effects it performed. -/

/-- `CacheMetadata` (persisted as `metadata.json`). -/
structure CacheMetadata where
  version : String
  installedAt : String
  lastUpdateCheck : String
  source : String
deriving DecidableEq, Repr

/-- `BinaryStatus` returned by `getStatus`. -/
structure BinaryStatus where
  available : Bool
  path : Option String
  version : Option String
  source : Option String
deriving DecidableEq, Repr

/-- `PjBinaryError`. -/
structure PjErr where
  message : String
deriving DecidableEq, Repr

/-- Externally visible effects, in program order. -/
inductive Effect where
  | accessCheck (path : String)
  | versionQuery (path : String)
  | whichLookup
  | whereLookup
  | metadataRead
  | metadataWrite (m : CacheMetadata)
  | fetchReleases
  | fetchLatest
  | fetchTag (tag : String)
  | mkdirCache
  | download (url : String)
  | extract
  | unlinkTarball
  | chmodBinary
deriving DecidableEq, Repr

/-- Observable behaviour of the filesystem paths the manager probes:
whether `fs.access(p, X_OK)` succeeds, and what `execa(p, ["--version"])`
prints to stdout (`none` when the invocation fails or times out). -/
structure FsState where
  exec : String → Bool
  stdout : String → Option String

/-- Mutable state threaded through every operation. -/
structure MState where
  cachedBinaryPath : Option String
  metadata : Option CacheMetadata
  fs : FsState
  clock : Nat

/-- Fixed oracles: environment, host identity, search-path lookups, HTTP
responses, install-step outcomes, the behaviour of a freshly extracted
artifact, and the time line. -/
structure World where
  envPath : Option String
  nodePlatform : String
  nodeArch : String
  whichStdout : Option String
  whereStdout : Option String
  releasesBody : Except Nat (List RawRelease)
  latestBody : Except Nat RawRelease
  tagBody : String → Except Nat RawRelease
  statusText : Nat → String
  downloadResult : String → Except String Unit
  mkdirOk : Bool
  extractOk : Bool
  unlinkOk : Bool
  chmodOk : Bool
  artifactExec : Bool
  artifactStdout : Option String
  cacheDir : String
  now : Nat → String
  nowMs : Nat → Int
  timeMs : String → Option Int

/-- The operation monad: result or thrown error, next state, effect trace. -/
def M (α : Type) : Type := MState → Except PjErr α × MState × List Effect

instance : Monad M where
  pure a := fun s => (Except.ok a, s, [])
  bind x f := fun s =>
    match x s with
    | (Except.ok a, s1, t1) =>
      match f a s1 with
      | (r, s2, t2) => (r, s2, t1 ++ t2)
    | (Except.error e, s1, t1) => (Except.error e, s1, t1)

/-- `throw new PjBinaryError(msg)`. -/
def throwErr {α : Type} (msg : String) : M α := fun s => (Except.error ⟨msg⟩, s, [])

/-- Record one effect. -/
def emit (e : Effect) : M Unit := fun s => (Except.ok (), s, [e])

/-- Read the current state. -/
def getS : M MState := fun s => (Except.ok s, s, [])

/-- Update the state. -/
def modifyS (f : MState → MState) : M Unit := fun s => (Except.ok (), f s, [])

/-- `try { x } catch { h }`: state changes made before the throw persist. -/
def tryCatch {α : Type} (x : M α) (h : PjErr → M α) : M α := fun s =>
  match x s with
  | (Except.ok a, s1, t1) => (Except.ok a, s1, t1)
  | (Except.error e, s1, t1) =>
    match h e s1 with
    | (r, s2, t2) => (r, s2, t1 ++ t2)

/-- `new Date().toISOString()`: consume one clock reading. -/
def nowISO (w : World) : M String := fun s =>
  (Except.ok (w.now s.clock), { s with clock := s.clock + 1 }, [])

/-- `new Date().getTime()`: consume one clock reading, as epoch millis. -/
def nowEpochMs (w : World) : M Int := fun s =>
  (Except.ok (w.nowMs s.clock), { s with clock := s.clock + 1 }, [])

@[simp] theorem run_pure {α : Type} (a : α) (s : MState) :
    (pure a : M α) s = (Except.ok a, s, []) := rfl

@[simp] theorem run_bind {α β : Type} (x : M α) (f : α → M β) (s : MState) :
    (x >>= f) s =
      match x s with
      | (Except.ok a, s1, t1) =>
        match f a s1 with
        | (r, s2, t2) => (r, s2, t1 ++ t2)
      | (Except.error e, s1, t1) => (Except.error e, s1, t1) := rfl

@[simp] theorem run_throwErr {α : Type} (msg : String) (s : MState) :
    (throwErr msg : M α) s = (Except.error ⟨msg⟩, s, []) := rfl

@[simp] theorem run_emit (e : Effect) (s : MState) :
    emit e s = (Except.ok (), s, [e]) := rfl

@[simp] theorem run_getS (s : MState) : getS s = (Except.ok s, s, []) := rfl

@[simp] theorem run_modifyS (f : MState → MState) (s : MState) :
    modifyS f s = (Except.ok (), f s, []) := rfl

@[simp] theorem run_tryCatch {α : Type} (x : M α) (h : PjErr → M α) (s : MState) :
    tryCatch x h s =
      match x s with
      | (Except.ok a, s1, t1) => (Except.ok a, s1, t1)
      | (Except.error e, s1, t1) =>
        match h e s1 with
        | (r, s2, t2) => (r, s2, t1 ++ t2) := rfl

@[simp] theorem run_nowISO (w : World) (s : MState) :
    nowISO w s = (Except.ok (w.now s.clock), { s with clock := s.clock + 1 }, []) := rfl

@[simp] theorem run_nowEpochMs (w : World) (s : MState) :
    nowEpochMs w s = (Except.ok (w.nowMs s.clock), { s with clock := s.clock + 1 }, []) := rfl

/-- JavaScript string truthiness for `string | null | undefined`:
falsy when absent or empty. -/
def jsFalsy : Option String → Bool
  | none => true
  | some s => s = ""

@[simp] theorem jsFalsy_none : jsFalsy none = true := rfl

@[simp] theorem jsFalsy_some (p : String) : jsFalsy (some p) = decide (p = "") := rfl

/-- Lift a pure `Except` computation into the monad. -/
def liftExcept {α : Type} (x : Except PjErr α) : M α := fun s => (x, s, [])

@[simp] theorem run_liftExcept {α : Type} (x : Except PjErr α) (s : MState) :
    liftExcept x s = (x, s, []) := rfl

/-- `String.prototype.trim()`. -/
def jsTrim (s : String) : String :=
  String.mk (((s.data.dropWhile Char.isWhitespace).reverse.dropWhile
    Char.isWhitespace).reverse)

/-- `str.split("\n")[0]`. -/
def firstLine (s : String) : String :=
  String.mk (s.data.takeWhile fun c => c ≠ '\n')

/-- `versions.join(", ")`. -/
def joinComma : List String → String
  | [] => ""
  | [s] => s
  | s :: rest => s ++ ", " ++ joinComma rest

/-- `getBinaryName()` from `constants.ts`. -/
def getBinaryName (w : World) : String :=
  if w.nodePlatform == "win32" then "pj.exe" else "pj"

/-- `path.join(getBinaryCacheDir(), getBinaryName())`. -/
def cacheBinPath (w : World) : String := w.cacheDir ++ "/" ++ getBinaryName w

/-- `UPDATE_CHECK_INTERVAL_DAYS` from `constants.ts`. -/
def UPDATE_CHECK_INTERVAL_DAYS : Nat := 7

/-- `version.startsWith("v") ? version : "v" + version` in `getRelease`. -/
def normalizeTag (version : String) : String :=
  match version.data with
  | 'v' :: _ => version
  | _ => "v" ++ version

/-! ### Registry client operations (pure results plus effectful wrappers) -/

/-- `getAllReleases`: fetch up to 100 releases and drop prereleases. -/
def getAllReleasesR (w : World) : Except PjErr (List GithubRelease) :=
  match w.releasesBody with
  | Except.error status =>
    Except.error ⟨"Failed to fetch releases: " ++ toString status ++ " " ++
      w.statusText status⟩
  | Except.ok data =>
    Except.ok ((data.filter fun r => !r.prerelease).map parseRelease)

def getAllReleases (w : World) : M (List GithubRelease) := do
  emit Effect.fetchReleases
  liftExcept (getAllReleasesR w)

/-- `getCompatibleRelease`: the release of the highest compatible version. -/
def getCompatibleReleaseR (w : World) : Except PjErr GithubRelease :=
  match getAllReleasesR w with
  | Except.error e => Except.error e
  | Except.ok releases =>
    let versions := releases.map fun r => r.version
    match findHighestCompatibleVersion versions PJ_TARGET_VERSION with
    | none =>
      Except.error ⟨"No compatible pj release found for version range " ++
        PJ_TARGET_VERSION ++ ".x. Available versions: " ++ joinComma versions⟩
    | some compatibleVersion =>
      match releases.find? (fun r => r.version == compatibleVersion) with
      | none =>
        Except.error ⟨"Failed to find release for version " ++ compatibleVersion⟩
      | some release => Except.ok release

def getCompatibleRelease (w : World) : M GithubRelease := do
  emit Effect.fetchReleases
  liftExcept (getCompatibleReleaseR w)

/-- `getLatestRelease`: the registry's `releases/latest` endpoint, parsed
with no prerelease filtering. -/
def getLatestReleaseR (w : World) : Except PjErr GithubRelease :=
  match w.latestBody with
  | Except.error status =>
    Except.error ⟨"Failed to fetch latest release: " ++ toString status ++ " " ++
      w.statusText status⟩
  | Except.ok data => Except.ok (parseRelease data)

def getLatestRelease (w : World) : M GithubRelease := do
  emit Effect.fetchLatest
  liftExcept (getLatestReleaseR w)

/-- `getRelease(version)`: fetch a specific tag (tag normalized to carry a
leading `v`). -/
def getReleaseR (w : World) (version : String) : Except PjErr GithubRelease :=
  match w.tagBody (normalizeTag version) with
  | Except.error status =>
    Except.error ⟨"Failed to fetch release " ++ version ++ ": " ++
      toString status ++ " " ++ w.statusText status⟩
  | Except.ok data => Except.ok (parseRelease data)

def getRelease (w : World) (version : String) : M GithubRelease := do
  emit (Effect.fetchTag (normalizeTag version))
  liftExcept (getReleaseR w version)

/-- The release `downloadBinary` selects: by exact tag when a version option
is (truthily) present, otherwise the highest compatible one. -/
def selectedReleaseR (w : World) (optVersion : Option String) :
    Except PjErr GithubRelease :=
  if jsFalsy optVersion then getCompatibleReleaseR w
  else getReleaseR w (optVersion.getD "")

/-! ### Verification and lookup operations -/

/-- `getVersion`: run `<path> --version` and regex-extract the version;
`null` on any failure. -/
def getVersion (w : World) (binaryPath : String) : M (Option String) := do
  emit (Effect.versionQuery binaryPath)
  let s ← getS
  match s.fs.stdout binaryPath with
  | none => pure none
  | some out => pure (extractVersion out)

/-- `isValidBinary`: executable bit plus a parseable `--version` output. -/
def isValidBinary (w : World) (binaryPath : String) : M Bool := do
  emit (Effect.accessCheck binaryPath)
  let s ← getS
  if s.fs.exec binaryPath then do
    let v ← getVersion w binaryPath
    pure v.isSome
  else
    pure false

/-- The pure value `getVersion` returns in state `s`. -/
def versionPure (s : MState) (p : String) : Option String :=
  match s.fs.stdout p with
  | none => none
  | some out => extractVersion out

/-- The pure value `isValidBinary` returns in state `s`. -/
def validPure (s : MState) (p : String) : Bool :=
  s.fs.exec p && (versionPure s p).isSome

/-- `findGlobalBinary`: `which pj` (then `where pj` on Windows), validity
check, then target-range compatibility check; `null` on any failure. -/
def findGlobalBinary (w : World) : M (Option String) := do
  emit Effect.whichLookup
  let bp1 : Option String := w.whichStdout.map jsTrim
  let bp ←
    if jsFalsy bp1 && w.nodePlatform == "win32" then do
      emit Effect.whereLookup
      match w.whereStdout with
      | some out => pure (some (firstLine (jsTrim out)))
      | none => pure bp1
    else pure bp1
  if jsFalsy bp then pure none
  else do
    let p := bp.getD ""
    let ok ← isValidBinary w p
    if ok then do
      let ver ← getVersion w p
      if jsFalsy ver then pure none
      else if isVersionCompatible (ver.getD "") PJ_TARGET_VERSION then pure (some p)
      else pure none
    else pure none

/-- `getCachedBinaryPath`: in-memory path first (invalidated when it fails
re-checks), then the fixed on-disk cache location; both must be valid and
target-range compatible. -/
def getCachedBinaryPath (w : World) : M (Option String) := do
  let s0 ← getS
  let r1 ←
    if !jsFalsy s0.cachedBinaryPath then do
      let p := s0.cachedBinaryPath.getD ""
      let ok ← isValidBinary w p
      let keep ←
        if ok then do
          let ver ← getVersion w p
          pure (!jsFalsy ver && isVersionCompatible (ver.getD "") PJ_TARGET_VERSION)
        else pure false
      if keep then pure (some p)
      else do
        modifyS fun s => { s with cachedBinaryPath := none }
        pure none
    else pure none
  match r1 with
  | some p => pure (some p)
  | none => do
    let bp := cacheBinPath w
    let ok ← isValidBinary w bp
    if ok then do
      let ver ← getVersion w bp
      if !jsFalsy ver && isVersionCompatible (ver.getD "") PJ_TARGET_VERSION then do
        modifyS fun s => { s with cachedBinaryPath := some bp }
        pure (some bp)
      else pure none
    else pure none

/-! ### Metadata store and update-check policy -/

def getMetadata (w : World) : M (Option CacheMetadata) := do
  emit Effect.metadataRead
  let s ← getS
  pure s.metadata

def saveMetadata (w : World) (m : CacheMetadata) : M Unit := do
  emit (Effect.metadataWrite m)
  modifyS fun s => { s with metadata := some m }

/-- `shouldCheckForUpdate`: due when no metadata exists or at least the
fixed interval of days elapsed since `lastUpdateCheck` (an unparsable
timestamp yields `NaN`, whose comparison is false). -/
def shouldCheckForUpdate (w : World) : M Bool := do
  let md ← getMetadata w
  match md with
  | none => pure true
  | some m => do
    let n ← nowEpochMs w
    match w.timeMs m.lastUpdateCheck with
    | none => pure false
    | some t =>
      pure (decide ((n - t) ≥ (UPDATE_CHECK_INTERVAL_DAYS : Int) * 86400000))

/-! ### Install, update and resolution -/

/-- `downloadAsset`: stream the asset body to disk; throws `PjBinaryError`
on a non-2xx response or empty body (both folded into the world's download
oracle). -/
def downloadAsset (w : World) (asset : GithubAsset) (destPath : String) : M Unit := do
  emit (Effect.download asset.downloadUrl)
  match w.downloadResult asset.downloadUrl with
  | Except.error msg => throwErr msg
  | Except.ok _ => pure ()

/-- `downloadBinary`: select a release, find the platform asset, download the
tarball into the cache directory, extract only the entry whose base name is
the binary name, delete the tarball, set the executable bit on non-Windows
hosts, re-validate, and only then persist metadata and update the in-memory
path cache. -/
def downloadBinary (w : World) (optVersion : Option String) (force : Bool) : M String := do
  let release ←
    if jsFalsy optVersion then getCompatibleRelease w
    else getRelease w (optVersion.getD "")
  match detectPlatform w.nodePlatform w.nodeArch with
  | Except.error msg => throwErr msg
  | Except.ok platform => do
    let assetName := getAssetFilename release.version platform
    match release.assets.find? (fun a => a.name == assetName) with
    | none =>
      throwErr ("No binary available for " ++ platform.pjOs ++ "/" ++
        platform.pjArch ++ ". Expected asset: " ++ assetName)
    | some asset => do
      emit Effect.mkdirCache
      if !w.mkdirOk then throwErr "mkdir failed"
      else do
        let tarballPath := w.cacheDir ++ "/" ++ assetName
        downloadAsset w asset tarballPath
        emit Effect.extract
        if !w.extractOk then throwErr "extract failed"
        else do
          let binaryPath := cacheBinPath w
          modifyS fun s =>
            { s with fs :=
              ⟨fun p => if p = binaryPath then w.artifactExec else s.fs.exec p,
               fun p => if p = binaryPath then w.artifactStdout else s.fs.stdout p⟩ }
          emit Effect.unlinkTarball
          if !w.unlinkOk then throwErr "unlink failed"
          else do
            if w.nodePlatform != "win32" then do
              emit Effect.chmodBinary
              if !w.chmodOk then throwErr "chmod failed"
              else modifyS fun s =>
                { s with fs :=
                  ⟨fun p => if p = binaryPath then true else s.fs.exec p,
                   s.fs.stdout⟩ }
            else pure ()
            let ok ← isValidBinary w binaryPath
            if !ok then throwErr "Downloaded binary failed verification"
            else do
              let t1 ← nowISO w
              let t2 ← nowISO w
              saveMetadata w ⟨release.version, t1, t2, "download"⟩
              modifyS fun s => { s with cachedBinaryPath := some binaryPath }
              pure binaryPath

/-- `updateBinary`: compare the cached metadata's version with the highest
compatible release; when identical and not forced, only refresh
`lastUpdateCheck` and return the cached path, otherwise download pinned to
that version. -/
def updateBinary (w : World) (optVersion : Option String) (force : Bool) : M String := do
  let compatible ← getCompatibleRelease w
  let metadata ← getMetadata w
  let done ←
    if (match metadata with
        | some m => m.version == compatible.version
        | none => false) && !force then do
      let m := metadata.getD ⟨"", "", "", ""⟩
      let t ← nowISO w
      saveMetadata w { m with lastUpdateCheck := t }
      getCachedBinaryPath w
    else pure none
  if !jsFalsy done then pure (done.getD "")
  else downloadBinary w (some compatible.version) force

/-- `getBinaryPath`: environment override (fatal when set but invalid),
then global install, then cache (with an opportunistic, swallowed update
attempt when one is due and no version was pinned), then a fresh download. -/
def getBinaryPath (w : World) (optVersion : Option String) (force : Bool) : M String := do
  if !jsFalsy w.envPath then do
    let p := w.envPath.getD ""
    let ok ← isValidBinary w p
    if ok then pure p
    else throwErr ("PJ_BINARY_PATH is set but binary is not valid: " ++ p)
  else do
    let globalPath ← findGlobalBinary w
    if !jsFalsy globalPath then pure (globalPath.getD "")
    else do
      let cachedPath ← getCachedBinaryPath w
      if !jsFalsy cachedPath && !force then do
        let needsUpdate ← shouldCheckForUpdate w
        if needsUpdate && optVersion == none then
          tryCatch (do
            let _ ← updateBinary w optVersion force
            pure ()) (fun _ => pure ())
        else pure ()
        pure (cachedPath.getD "")
      else downloadBinary w optVersion force

/-- `getStatus`: report the first usable source among override, global and
cache without ever throwing or downloading. -/
def getStatus (w : World) : M BinaryStatus := do
  let envOk ←
    if !jsFalsy w.envPath then isValidBinary w (w.envPath.getD "")
    else pure false
  if envOk then do
    let ver ← getVersion w (w.envPath.getD "")
    pure ⟨true, w.envPath, ver, some "env"⟩
  else do
    let globalPath ← findGlobalBinary w
    if !jsFalsy globalPath then do
      let ver ← getVersion w (globalPath.getD "")
      pure ⟨true, globalPath, ver, some "global"⟩
    else do
      let cachedPath ← getCachedBinaryPath w
      if !jsFalsy cachedPath then do
        let ver ← getVersion w (cachedPath.getD "")
        pure ⟨true, cachedPath, ver, some "cache"⟩
      else pure ⟨false, none, none, none⟩

/-! ## Derived evaluation lemmas for the read-only operations -/

/-- Effect trace of one `isValidBinary` call. -/
def validTrace (s : MState) (p : String) : List Effect :=
  if s.fs.exec p then [Effect.accessCheck p, Effect.versionQuery p]
  else [Effect.accessCheck p]

theorem run_getVersion (w : World) (p : String) (s : MState) :
    getVersion w p s = (Except.ok (versionPure s p), s, [Effect.versionQuery p]) := by
  unfold getVersion versionPure
  cases h : s.fs.stdout p <;> simp [h]

theorem run_isValidBinary (w : World) (p : String) (s : MState) :
    isValidBinary w p s = (Except.ok (validPure s p), s, validTrace s p) := by
  unfold isValidBinary validPure validTrace
  cases h : s.fs.exec p <;> simp [h, run_getVersion]

/-- The path `findGlobalBinary` obtains from `which`/`where` before any
validity check. -/
def globalCandidate (w : World) : Option String :=
  let bp1 := w.whichStdout.map jsTrim
  if jsFalsy bp1 && w.nodePlatform == "win32" then
    match w.whereStdout with
    | some out => some (firstLine (jsTrim out))
    | none => bp1
  else bp1

/-- The pure value `findGlobalBinary` returns in state `s`. -/
def findGlobalBinaryR (w : World) (s : MState) : Option String :=
  let bp := globalCandidate w
  if jsFalsy bp then none
  else
    let p := bp.getD ""
    if validPure s p then
      if jsFalsy (versionPure s p) then none
      else if isVersionCompatible ((versionPure s p).getD "") PJ_TARGET_VERSION then
        some p
      else none
    else none

/-- Effect trace of one `findGlobalBinary` call. -/
def globalTrace (w : World) (s : MState) : List Effect :=
  let pre :=
    if jsFalsy (w.whichStdout.map jsTrim) && w.nodePlatform == "win32" then
      [Effect.whichLookup, Effect.whereLookup]
    else [Effect.whichLookup]
  let bp := globalCandidate w
  if jsFalsy bp then pre
  else
    let p := bp.getD ""
    if validPure s p then pre ++ validTrace s p ++ [Effect.versionQuery p]
    else pre ++ validTrace s p

theorem run_findGlobalBinary (w : World) (s : MState) :
    findGlobalBinary w s = (Except.ok (findGlobalBinaryR w s), s, globalTrace w s) := by
  unfold findGlobalBinary findGlobalBinaryR globalTrace globalCandidate
  cases hws : w.whereStdout <;>
    by_cases h1 : (jsFalsy (w.whichStdout.map jsTrim) && (w.nodePlatform == "win32")) = true <;>
      simp [h1, hws, run_isValidBinary, run_getVersion] <;>
        split_ifs <;> simp_all [run_isValidBinary, run_getVersion]

/-- The combined check a cached path must pass: valid, truthy version,
target-range compatible. -/
def keepPure (s : MState) (p : String) : Bool :=
  validPure s p && (!jsFalsy (versionPure s p) &&
    isVersionCompatible ((versionPure s p).getD "") PJ_TARGET_VERSION)

/-- The pure value `getCachedBinaryPath` returns in state `s`. -/
def getCachedR (w : World) (s : MState) : Option String :=
  if !jsFalsy s.cachedBinaryPath && keepPure s (s.cachedBinaryPath.getD "") then
    some (s.cachedBinaryPath.getD "")
  else if keepPure s (cacheBinPath w) then some (cacheBinPath w)
  else none

/-- The state `getCachedBinaryPath` leaves behind. -/
def getCachedS (w : World) (s : MState) : MState :=
  if !jsFalsy s.cachedBinaryPath && keepPure s (s.cachedBinaryPath.getD "") then s
  else if keepPure s (cacheBinPath w) then
    { s with cachedBinaryPath := some (cacheBinPath w) }
  else if !jsFalsy s.cachedBinaryPath then { s with cachedBinaryPath := none }
  else s

/-- Effect trace of one `getCachedBinaryPath` call. -/
def cachedTrace (w : World) (s : MState) : List Effect :=
  let memT :=
    if !jsFalsy s.cachedBinaryPath then
      let p := s.cachedBinaryPath.getD ""
      if validPure s p then validTrace s p ++ [Effect.versionQuery p]
      else validTrace s p
    else []
  if !jsFalsy s.cachedBinaryPath && keepPure s (s.cachedBinaryPath.getD "") then memT
  else
    let bp := cacheBinPath w
    if validPure s bp then memT ++ validTrace s bp ++ [Effect.versionQuery bp]
    else memT ++ validTrace s bp

@[simp] theorem validPure_set_cached (s : MState) (x : Option String) (p : String) :
    validPure { s with cachedBinaryPath := x } p = validPure s p := rfl

@[simp] theorem versionPure_set_cached (s : MState) (x : Option String) (p : String) :
    versionPure { s with cachedBinaryPath := x } p = versionPure s p := rfl

@[simp] theorem validTrace_set_cached (s : MState) (x : Option String) (p : String) :
    validTrace { s with cachedBinaryPath := x } p = validTrace s p := rfl

theorem run_getCachedBinaryPath (w : World) (s : MState) :
    getCachedBinaryPath w s =
      (Except.ok (getCachedR w s), getCachedS w s, cachedTrace w s) := by
  unfold getCachedBinaryPath getCachedR getCachedS cachedTrace keepPure
  by_cases c1 : jsFalsy s.cachedBinaryPath = true <;>
    by_cases c2 : validPure s (s.cachedBinaryPath.getD "") = true <;>
      by_cases c4 : validPure s (cacheBinPath w) = true <;>
        simp [c1, c2, c4, run_isValidBinary, run_getVersion] <;>
          split_ifs <;> simp_all [run_isValidBinary, run_getVersion] <;>
            try (split_ifs <;> simp_all)

/-! ## Witness worlds -/

/-- A filesystem on which no path is executable. -/
def fsEmpty : FsState := ⟨fun _ => false, fun _ => none⟩

/-- A filesystem whose only usable binary is `/ovr`, reporting version
1.4.1 (outside the 1.11 target range). -/
def fsOverride : FsState :=
  ⟨fun p => p = "/ovr", fun p => if p = "/ovr" then some "pj version 1.4.1" else none⟩

/-- Initial state: nothing resolved, no metadata, clock at zero. -/
def stateEmpty : MState := ⟨none, none, fsEmpty, 0⟩

/-- A quiet base world: no override, Linux/x64 host, no global binary,
failing registry, succeeding install steps, a valid artifact. -/
def worldBase : World :=
  { envPath := none
    nodePlatform := "linux"
    nodeArch := "x64"
    whichStdout := none
    whereStdout := none
    releasesBody := Except.error 500
    latestBody := Except.error 500
    tagBody := fun _ => Except.error 500
    statusText := fun _ => "Internal Server Error"
    downloadResult := fun _ => Except.ok ()
    mkdirOk := true
    extractOk := true
    unlinkOk := true
    chmodOk := true
    artifactExec := true
    artifactStdout := some "pj version 1.11.2"
    cacheDir := "/cache"
    now := fun k => "2026-01-01T00:00:0" ++ toString k ++ ".000Z"
    nowMs := fun _ => 0
    timeMs := fun _ => none }

/-! ## Claim C1 -/

/-- C1: when the `PJ_BINARY_PATH` override is set to a path that fails
validity verification, `getBinaryPath` throws the invalid-override error,
leaves the state untouched, and its entire effect trace consists of the
validity probe of the override path itself — no global lookup, no cache or
metadata read, and no network or download effect occurs. -/
theorem claim_C1_invalid_override_fatal (w : World) (s : MState)
    (optVersion : Option String) (force : Bool) (p : String)
    (henv : w.envPath = some p) (hne : p ≠ "")
    (hinvalid : validPure s p = false) :
    getBinaryPath w optVersion force s =
      (Except.error ⟨"PJ_BINARY_PATH is set but binary is not valid: " ++ p⟩, s,
        validTrace s p) ∧
    ∀ e ∈ validTrace s p, e = Effect.accessCheck p ∨ e = Effect.versionQuery p := by
  constructor
  · unfold getBinaryPath
    simp [henv, jsFalsy, hne, run_isValidBinary, hinvalid]
  · unfold validTrace
    split <;> simp

/-- Witness for C1 at a concrete world and state. -/
theorem claim_C1_witness :
    validPure stateEmpty "/ovr" = false ∧
    ("/ovr" : String) ≠ "" ∧
    (getBinaryPath { worldBase with envPath := some "/ovr" } none false stateEmpty =
      (Except.error ⟨"PJ_BINARY_PATH is set but binary is not valid: /ovr"⟩,
        stateEmpty, validTrace stateEmpty "/ovr") ∧
     ∀ e ∈ validTrace stateEmpty "/ovr",
       e = Effect.accessCheck "/ovr" ∨ e = Effect.versionQuery "/ovr") := by
  refine ⟨rfl, by decide, ?_⟩
  exact claim_C1_invalid_override_fatal { worldBase with envPath := some "/ovr" }
    stateEmpty none false "/ovr" rfl (by decide) rfl

/-! ## Claim C9 -/

/-- C9: a `PJ_BINARY_PATH` override that passes validity verification is
returned by `getBinaryPath` even when its reported version is incompatible
with the configured target range — the override source is exempt from the
compatibility check. -/
theorem claim_C9_valid_override_exempt_from_range (w : World) (s : MState)
    (optVersion : Option String) (force : Bool) (p v : String)
    (henv : w.envPath = some p) (hne : p ≠ "")
    (hvalid : validPure s p = true)
    (hver : versionPure s p = some v)
    (hincompat : isVersionCompatible v PJ_TARGET_VERSION = false) :
    getBinaryPath w optVersion force s = (Except.ok p, s, validTrace s p) := by
  unfold getBinaryPath
  simp [henv, jsFalsy, hne, run_isValidBinary, hvalid]

/-- Witness for C9: a valid override reporting 1.4.1 against target range
1.11 is still returned. -/
theorem claim_C9_witness :
    validPure ⟨none, none, fsOverride, 0⟩ "/ovr" = true ∧
    versionPure ⟨none, none, fsOverride, 0⟩ "/ovr" = some "1.4.1" ∧
    isVersionCompatible "1.4.1" PJ_TARGET_VERSION = false ∧
    getBinaryPath { worldBase with envPath := some "/ovr" } none false
        ⟨none, none, fsOverride, 0⟩ =
      (Except.ok "/ovr", ⟨none, none, fsOverride, 0⟩,
        validTrace ⟨none, none, fsOverride, 0⟩ "/ovr") := by
  refine ⟨rfl, rfl, rfl, ?_⟩
  exact claim_C9_valid_override_exempt_from_range
    { worldBase with envPath := some "/ovr" } ⟨none, none, fsOverride, 0⟩
    none false "/ovr" "1.4.1" rfl (by decide) rfl rfl rfl

/-! ## Claim C10 -/

/-- The status `getStatus` reports once the override source has been ruled
out: global, then cache, then the all-null record. -/
def statusFallbackR (w : World) (s : MState) : BinaryStatus :=
  if !jsFalsy (findGlobalBinaryR w s) then
    ⟨true, findGlobalBinaryR w s,
      versionPure s ((findGlobalBinaryR w s).getD ""), some "global"⟩
  else if !jsFalsy (getCachedR w s) then
    ⟨true, getCachedR w s,
      versionPure (getCachedS w s) ((getCachedR w s).getD ""), some "cache"⟩
  else ⟨false, none, none, none⟩

/-- C10: with `PJ_BINARY_PATH` set to a path that fails validity
verification, `getStatus` does not throw: it returns the fall-through
status, whose source is global, cache or none — never the override — while
`getBinaryPath` on the same state fails. -/
theorem claim_C10_getStatus_tolerates_invalid_override (w : World) (s : MState)
    (p : String) (henv : w.envPath = some p) (hne : p ≠ "")
    (hinvalid : validPure s p = false) :
    (getStatus w s).1 = Except.ok (statusFallbackR w s) ∧
    (statusFallbackR w s).source ≠ some "env" ∧
    ((statusFallbackR w s).source = some "global" ∨
      (statusFallbackR w s).source = some "cache" ∨
      statusFallbackR w s = ⟨false, none, none, none⟩) ∧
    (∃ e, (getBinaryPath w none false s).1 = Except.error e) := by
  refine ⟨?_, ?_, ?_, ?_⟩
  · unfold getStatus statusFallbackR
    simp [henv, hne, run_isValidBinary, hinvalid, run_findGlobalBinary,
      run_getVersion, run_getCachedBinaryPath]
    split_ifs <;> simp_all [run_getVersion, run_getCachedBinaryPath]
  · unfold statusFallbackR
    split_ifs <;> simp
  · unfold statusFallbackR
    split_ifs <;> simp
  · unfold getBinaryPath
    simp [henv, jsFalsy, hne, run_isValidBinary, hinvalid]

/-- Witness for C10 at a concrete world and state (no usable source at
all, so the fall-through status is the all-null record). -/
theorem claim_C10_witness :
    validPure stateEmpty "/ovr" = false ∧
    ((getStatus { worldBase with envPath := some "/ovr" } stateEmpty).1 =
       Except.ok (statusFallbackR { worldBase with envPath := some "/ovr" } stateEmpty) ∧
     (statusFallbackR { worldBase with envPath := some "/ovr" } stateEmpty).source ≠
       some "env" ∧
     ((statusFallbackR { worldBase with envPath := some "/ovr" } stateEmpty).source =
        some "global" ∨
       (statusFallbackR { worldBase with envPath := some "/ovr" } stateEmpty).source =
        some "cache" ∨
       statusFallbackR { worldBase with envPath := some "/ovr" } stateEmpty =
        ⟨false, none, none, none⟩) ∧
     (∃ e, (getBinaryPath { worldBase with envPath := some "/ovr" } none false
        stateEmpty).1 = Except.error e)) := by
  refine ⟨rfl, ?_⟩
  exact claim_C10_getStatus_tolerates_invalid_override
    { worldBase with envPath := some "/ovr" } stateEmpty "/ovr" rfl (by decide) rfl

/-! ## Claim C2 -/

/-- C2: a globally installed binary is used only when it both passes
validity verification and reports a version compatible with the target
range; a valid global binary of the wrong major.minor makes
`findGlobalBinary` yield nothing (so resolution falls through), not an
error. -/
theorem claim_C2_global_needs_validity_and_range (w : World) (s : MState) :
    (∀ p, (findGlobalBinary w s).1 = Except.ok (some p) →
       validPure s p = true ∧ ∃ v, versionPure s p = some v ∧
         isVersionCompatible v PJ_TARGET_VERSION = true) ∧
    (∀ out p v, w.whichStdout = some out → jsTrim out = p → p ≠ "" →
       validPure s p = true → versionPure s p = some v →
       isVersionCompatible v PJ_TARGET_VERSION = false →
       (findGlobalBinary w s).1 = Except.ok none) := by
  constructor
  · intro p h
    rw [run_findGlobalBinary] at h
    simp only [Except.ok.injEq] at h
    simp only [findGlobalBinaryR] at h
    split_ifs at h with h1 h2 h3 h4 <;> simp at h
    subst h
    refine ⟨h2, ?_⟩
    cases hv : versionPure s ((globalCandidate w).getD "") with
    | none => rw [hv] at h3; simp at h3
    | some v0 =>
      rw [hv] at h4
      exact ⟨v0, rfl, by simpa using h4⟩
  · intro out p v hw hp hne hvalid hver hincompat
    rw [run_findGlobalBinary]
    simp
    unfold findGlobalBinaryR globalCandidate
    have hbp1 : jsFalsy (w.whichStdout.map jsTrim) = false := by
      rw [hw]
      simp [jsFalsy, hp, hne]
    simp [hw, hp, hbp1, jsFalsy, hne, hvalid, hver, hincompat]

/-- Witness for C2: a valid global pj reporting 1.4.1 against target range
1.11 is treated as absent. -/
theorem claim_C2_witness :
    jsTrim "/usr/bin/pj" = "/usr/bin/pj" ∧
    validPure ⟨none, none,
      ⟨fun q => q = "/usr/bin/pj",
       fun q => if q = "/usr/bin/pj" then some "pj version 1.4.1" else none⟩, 0⟩
      "/usr/bin/pj" = true ∧
    versionPure ⟨none, none,
      ⟨fun q => q = "/usr/bin/pj",
       fun q => if q = "/usr/bin/pj" then some "pj version 1.4.1" else none⟩, 0⟩
      "/usr/bin/pj" = some "1.4.1" ∧
    isVersionCompatible "1.4.1" PJ_TARGET_VERSION = false ∧
    (findGlobalBinary { worldBase with whichStdout := some "/usr/bin/pj" }
      ⟨none, none,
        ⟨fun q => q = "/usr/bin/pj",
         fun q => if q = "/usr/bin/pj" then some "pj version 1.4.1" else none⟩, 0⟩).1 =
      Except.ok none := by
  refine ⟨rfl, rfl, rfl, rfl, ?_⟩
  exact (claim_C2_global_needs_validity_and_range
    { worldBase with whichStdout := some "/usr/bin/pj" } _).2
    "/usr/bin/pj" "/usr/bin/pj" "1.4.1" rfl rfl (by decide) rfl rfl rfl

/-! ## Claim C7 -/

/-- A prerelease raw release used to exhibit `getLatestRelease`'s lack of
filtering. -/
def rawPrerelease : RawRelease :=
  ⟨"v1.12.0-rc.1", "pj 1.12.0-rc.1", true,
    [⟨"pj_1.12.0-rc.1_linux_amd64.tar.gz", "https://registry/pre.tgz", 100,
      "application/gzip"⟩]⟩

/-- C7: every release returned by `getAllReleases` has its prerelease flag
false, while `getLatestRelease` performs no prerelease filtering: for some
registry response it returns a release whose prerelease flag is true. -/
theorem claim_C7_prerelease_asymmetry :
    (∀ (w : World) (s : MState) (rels : List GithubRelease) (s2 : MState)
       (t : List Effect), getAllReleases w s = (Except.ok rels, s2, t) →
       ∀ r ∈ rels, r.prerelease = false) ∧
    (∃ (w : World) (s : MState) (r : GithubRelease) (s2 : MState) (t : List Effect),
       getLatestRelease w s = (Except.ok r, s2, t) ∧ r.prerelease = true) := by
  constructor
  · intro w s rels s2 t h r hr
    unfold getAllReleases at h
    simp at h
    unfold getAllReleasesR at h
    cases hb : w.releasesBody with
    | error status => rw [hb] at h; simp at h
    | ok data =>
      rw [hb] at h
      simp at h
      rw [← h.1] at hr
      simp [List.mem_map, List.mem_filter] at hr
      obtain ⟨raw, ⟨_, hraw⟩, hparse⟩ := hr
      rw [← hparse]
      unfold parseRelease
      simpa using hraw
  · refine ⟨{ worldBase with latestBody := Except.ok rawPrerelease }, stateEmpty,
      parseRelease rawPrerelease, stateEmpty, [Effect.fetchLatest], ?_, rfl⟩
    rfl

/-- A stable raw release accompanying the prerelease in the C7 witness. -/
def rawStable : RawRelease := ⟨"v1.11.2", "pj 1.11.2", false, []⟩

/-- Witness for C7: applying the universal part at a registry response that
contains a prerelease next to a stable release. -/
theorem claim_C7_witness :
    getAllReleases
        { worldBase with releasesBody := Except.ok [rawPrerelease, rawStable] }
        stateEmpty =
      (Except.ok [parseRelease rawStable], stateEmpty, [Effect.fetchReleases]) ∧
    ∀ r ∈ [parseRelease rawStable], r.prerelease = false := by
  refine ⟨rfl, ?_⟩
  exact (claim_C7_prerelease_asymmetry).1
    { worldBase with releasesBody := Except.ok [rawPrerelease, rawStable] }
    stateEmpty [parseRelease rawStable] stateEmpty [Effect.fetchReleases] rfl

/-! ## Claim C3 -/

@[simp] theorem run_ite {α : Type} (c : Prop) [Decidable c] (x y : M α) (s : MState) :
    (if c then x else y) s = if c then x s else y s := by
  split <;> rfl

/-- `metadataWrite` never occurs in a validity-check trace. -/
theorem metadataWrite_not_mem_validTrace (s : MState) (p : String) (m : CacheMetadata) :
    Effect.metadataWrite m ∉ validTrace s p := by
  unfold validTrace
  split <;> simp

/-- C3: whenever `downloadBinary` fails — at asset selection, download,
extraction, permission setting, or the final validity check — no cache
metadata is written (neither in the resulting state nor as an effect) and
the in-memory resolved-path cache is untouched, so no partial-success state
is observable by a later resolution call. -/
theorem claim_C3_failed_install_writes_no_metadata (w : World) (s : MState)
    (optVersion : Option String) (force : Bool) (e : PjErr) (s2 : MState)
    (t : List Effect)
    (h : downloadBinary w optVersion force s = (Except.error e, s2, t)) :
    s2.metadata = s.metadata ∧ s2.cachedBinaryPath = s.cachedBinaryPath ∧
    ∀ m : CacheMetadata, Effect.metadataWrite m ∉ t := by
  unfold downloadBinary getCompatibleRelease getRelease downloadAsset saveMetadata at h
  by_cases hv : jsFalsy optVersion = true <;> simp [hv, run_isValidBinary] at h
  case pos =>
    cases hres : getCompatibleReleaseR w with
    | error e1 =>
      simp [hres] at h
      obtain ⟨-, rfl, rfl⟩ := h
      exact ⟨rfl, rfl, fun m => by simp⟩
    | ok rel =>
      simp only [hres] at h
      try simp only [run_bind, run_emit, run_liftExcept, run_pure] at h
      cases hplat : detectPlatform w.nodePlatform w.nodeArch with
      | error msg =>
        simp [hplat] at h
        obtain ⟨-, rfl, rfl⟩ := h
        exact ⟨rfl, rfl, fun m => by simp⟩
      | ok platform =>
        simp only [hplat] at h
        cases hasset : List.find? (fun a => a.name == getAssetFilename rel.version platform)
            rel.assets with
        | none =>
          simp [hasset] at h
          obtain ⟨-, rfl, rfl⟩ := h
          exact ⟨rfl, rfl, fun m => by simp⟩
        | some asset =>
          simp only [hasset] at h
          by_cases hmk : w.mkdirOk = false
          · simp [hmk] at h
            obtain ⟨-, rfl, rfl⟩ := h
            exact ⟨rfl, rfl, fun m => by simp⟩
          · simp only [hmk] at h
            cases hdl : w.downloadResult asset.downloadUrl with
            | error msg =>
              simp [hmk, hdl] at h
              obtain ⟨-, rfl, rfl⟩ := h
              exact ⟨rfl, rfl, fun m => by simp⟩
            | ok u =>
              simp only [hdl] at h
              by_cases hex : w.extractOk = false
              · simp [hmk, hex] at h
                obtain ⟨-, rfl, rfl⟩ := h
                exact ⟨rfl, rfl, fun m => by simp⟩
              · simp only [hex] at h
                by_cases hun : w.unlinkOk = false
                · simp [hmk, hex, hun] at h
                  obtain ⟨-, rfl, rfl⟩ := h
                  exact ⟨rfl, rfl, fun m => by simp⟩
                · simp only [hun] at h
                  by_cases hwin : w.nodePlatform = "win32"
                  · simp [hmk, hex, hun, hwin, run_isValidBinary] at h
                    split at h
                    · simp at h
                      obtain ⟨-, rfl, rfl⟩ := h
                      exact ⟨rfl, rfl, fun m => by
                        simp [metadataWrite_not_mem_validTrace]⟩
                    · exact absurd h (by simp)
                  · try simp only [hwin] at h
                    by_cases hcm : w.chmodOk = false
                    · simp [hmk, hex, hun, hwin, hcm] at h
                      obtain ⟨-, rfl, rfl⟩ := h
                      exact ⟨rfl, rfl, fun m => by simp⟩
                    · simp [hmk, hex, hun, hwin, hcm, run_isValidBinary] at h
                      split at h
                      · simp at h
                        obtain ⟨-, rfl, rfl⟩ := h
                        exact ⟨rfl, rfl, fun m => by
                          simp [metadataWrite_not_mem_validTrace]⟩
                      · exact absurd h (by simp)
  case neg =>
    cases hres : getReleaseR w (optVersion.getD "") with
    | error e1 =>
      simp [hres] at h
      obtain ⟨-, rfl, rfl⟩ := h
      exact ⟨rfl, rfl, fun m => by simp⟩
    | ok rel =>
      simp only [hres] at h
      try simp only [run_bind, run_emit, run_liftExcept, run_pure] at h
      cases hplat : detectPlatform w.nodePlatform w.nodeArch with
      | error msg =>
        simp [hplat] at h
        obtain ⟨-, rfl, rfl⟩ := h
        exact ⟨rfl, rfl, fun m => by simp⟩
      | ok platform =>
        simp only [hplat] at h
        cases hasset : List.find? (fun a => a.name == getAssetFilename rel.version platform)
            rel.assets with
        | none =>
          simp [hasset] at h
          obtain ⟨-, rfl, rfl⟩ := h
          exact ⟨rfl, rfl, fun m => by simp⟩
        | some asset =>
          simp only [hasset] at h
          by_cases hmk : w.mkdirOk = false
          · simp [hmk] at h
            obtain ⟨-, rfl, rfl⟩ := h
            exact ⟨rfl, rfl, fun m => by simp⟩
          · simp only [hmk] at h
            cases hdl : w.downloadResult asset.downloadUrl with
            | error msg =>
              simp [hmk, hdl] at h
              obtain ⟨-, rfl, rfl⟩ := h
              exact ⟨rfl, rfl, fun m => by simp⟩
            | ok u =>
              simp only [hdl] at h
              by_cases hex : w.extractOk = false
              · simp [hmk, hex] at h
                obtain ⟨-, rfl, rfl⟩ := h
                exact ⟨rfl, rfl, fun m => by simp⟩
              · simp only [hex] at h
                by_cases hun : w.unlinkOk = false
                · simp [hmk, hex, hun] at h
                  obtain ⟨-, rfl, rfl⟩ := h
                  exact ⟨rfl, rfl, fun m => by simp⟩
                · simp only [hun] at h
                  by_cases hwin : w.nodePlatform = "win32"
                  · simp [hmk, hex, hun, hwin, run_isValidBinary] at h
                    split at h
                    · simp at h
                      obtain ⟨-, rfl, rfl⟩ := h
                      exact ⟨rfl, rfl, fun m => by
                        simp [metadataWrite_not_mem_validTrace]⟩
                    · exact absurd h (by simp)
                  · try simp only [hwin] at h
                    by_cases hcm : w.chmodOk = false
                    · simp [hmk, hex, hun, hwin, hcm] at h
                      obtain ⟨-, rfl, rfl⟩ := h
                      exact ⟨rfl, rfl, fun m => by simp⟩
                    · simp [hmk, hex, hun, hwin, hcm, run_isValidBinary] at h
                      split at h
                      · simp at h
                        obtain ⟨-, rfl, rfl⟩ := h
                        exact ⟨rfl, rfl, fun m => by
                          simp [metadataWrite_not_mem_validTrace]⟩
                      · exact absurd h (by simp)

/-! ## Claim C4 -/

/-- A compatible raw release carrying the Linux/amd64 asset. -/
def rawCompatible : RawRelease :=
  ⟨"v1.11.2", "pj 1.11.2", false,
    [⟨"pj_1.11.2_linux_amd64.tar.gz",
      "https://registry/pj_1.11.2_linux_amd64.tar.gz", 4096, "application/gzip"⟩]⟩

/-- World for the C3 witness: the download pipeline succeeds but the
extracted binary fails verification (its version query yields nothing). -/
def wC3 : World :=
  { worldBase with releasesBody := Except.ok [rawCompatible], artifactStdout := none }

/-- Witness for C3: a download whose final validity check fails leaves no
metadata, no in-memory path, and no metadata-write effect. -/
theorem claim_C3_witness :
    (downloadBinary wC3 none false stateEmpty).1 =
      Except.error ⟨"Downloaded binary failed verification"⟩ ∧
    ((downloadBinary wC3 none false stateEmpty).2.1.metadata = stateEmpty.metadata ∧
     (downloadBinary wC3 none false stateEmpty).2.1.cachedBinaryPath =
       stateEmpty.cachedBinaryPath ∧
     ∀ m : CacheMetadata,
       Effect.metadataWrite m ∉ (downloadBinary wC3 none false stateEmpty).2.2) := by
  refine ⟨rfl, ?_⟩
  exact claim_C3_failed_install_writes_no_metadata wC3 stateEmpty none false
    ⟨"Downloaded binary failed verification"⟩
    (downloadBinary wC3 none false stateEmpty).2.1
    (downloadBinary wC3 none false stateEmpty).2.2 rfl

/-- C4 as amended: after a successful install the persisted metadata's
`version` equals the version of the release that was actually installed and
its `source` is `"download"`, while `installedAt` and `lastUpdateCheck` are
two consecutive clock readings taken in that order — they are the same
instant only when the clock does not advance between the two readings. -/
theorem claim_C4_metadata_from_consecutive_clock_reads (w : World) (s : MState)
    (optVersion : Option String) (force : Bool) (p : String) (s2 : MState)
    (t : List Effect)
    (h : downloadBinary w optVersion force s = (Except.ok p, s2, t)) :
    ∃ rel, selectedReleaseR w optVersion = Except.ok rel ∧
      s2.metadata = some ⟨rel.version, w.now s.clock, w.now (s.clock + 1), "download"⟩ ∧
      s2.cachedBinaryPath = some p := by
  unfold downloadBinary getCompatibleRelease getRelease downloadAsset saveMetadata at h
  by_cases hv : jsFalsy optVersion = true <;> simp [hv, run_isValidBinary] at h
  case pos =>
    cases hres : getCompatibleReleaseR w with
    | error e1 => simp [hres] at h
    | ok rel =>
      simp only [hres] at h
      try simp only [run_bind, run_emit, run_liftExcept, run_pure] at h
      cases hplat : detectPlatform w.nodePlatform w.nodeArch with
      | error msg => simp [hplat] at h
      | ok platform =>
        simp only [hplat] at h
        cases hasset : List.find? (fun a => a.name == getAssetFilename rel.version platform)
            rel.assets with
        | none => simp [hasset] at h
        | some asset =>
          simp only [hasset] at h
          by_cases hmk : w.mkdirOk = false
          · simp [hmk] at h
          · simp only [hmk] at h
            cases hdl : w.downloadResult asset.downloadUrl with
            | error msg => simp [hmk, hdl] at h
            | ok u =>
              simp only [hdl] at h
              by_cases hex : w.extractOk = false
              · simp [hmk, hex] at h
              · simp only [hex] at h
                by_cases hun : w.unlinkOk = false
                · simp [hmk, hex, hun] at h
                · simp only [hun] at h
                  by_cases hwin : w.nodePlatform = "win32"
                  · simp [hmk, hex, hun, hwin, run_isValidBinary] at h
                    split at h
                    · simp at h
                    · simp at h
                      obtain ⟨rfl, rfl, rfl⟩ := h
                      exact ⟨rel, by simp [selectedReleaseR, hv, hres], by simp, by simp⟩
                  · try simp only [hwin] at h
                    by_cases hcm : w.chmodOk = false
                    · simp [hmk, hex, hun, hwin, hcm] at h
                    · simp [hmk, hex, hun, hwin, hcm, run_isValidBinary] at h
                      split at h
                      · simp at h
                      · simp at h
                        obtain ⟨rfl, rfl, rfl⟩ := h
                        exact ⟨rel, by simp [selectedReleaseR, hv, hres], by simp, by simp⟩
  case neg =>
    cases hres : getReleaseR w (optVersion.getD "") with
    | error e1 => simp [hres] at h
    | ok rel =>
      simp only [hres] at h
      try simp only [run_bind, run_emit, run_liftExcept, run_pure] at h
      cases hplat : detectPlatform w.nodePlatform w.nodeArch with
      | error msg => simp [hplat] at h
      | ok platform =>
        simp only [hplat] at h
        cases hasset : List.find? (fun a => a.name == getAssetFilename rel.version platform)
            rel.assets with
        | none => simp [hasset] at h
        | some asset =>
          simp only [hasset] at h
          by_cases hmk : w.mkdirOk = false
          · simp [hmk] at h
          · simp only [hmk] at h
            cases hdl : w.downloadResult asset.downloadUrl with
            | error msg => simp [hmk, hdl] at h
            | ok u =>
              simp only [hdl] at h
              by_cases hex : w.extractOk = false
              · simp [hmk, hex] at h
              · simp only [hex] at h
                by_cases hun : w.unlinkOk = false
                · simp [hmk, hex, hun] at h
                · simp only [hun] at h
                  by_cases hwin : w.nodePlatform = "win32"
                  · simp [hmk, hex, hun, hwin, run_isValidBinary] at h
                    split at h
                    · simp at h
                    · simp at h
                      obtain ⟨rfl, rfl, rfl⟩ := h
                      exact ⟨rel, by simp [selectedReleaseR, hv, hres], by simp, by simp⟩
                  · try simp only [hwin] at h
                    by_cases hcm : w.chmodOk = false
                    · simp [hmk, hex, hun, hwin, hcm] at h
                    · simp [hmk, hex, hun, hwin, hcm, run_isValidBinary] at h
                      split at h
                      · simp at h
                      · simp at h
                        obtain ⟨rfl, rfl, rfl⟩ := h
                        exact ⟨rel, by simp [selectedReleaseR, hv, hres], by simp, by simp⟩

/-- World for the C4 counterexample and witness: a registry with one
compatible release and an install pipeline that succeeds. -/
def wC4 : World := { worldBase with releasesBody := Except.ok [rawCompatible] }

/-- Counterexample to C4 as stated: on this successful install the
metadata's `version` is right, but `installedAt` and `lastUpdateCheck` come
from two separate `new Date()` constructions, and here the clock advanced
between them, so they are not the same instant. -/
theorem claim_C4_counterexample :
    (downloadBinary wC4 none false stateEmpty).1 = Except.ok "/cache/pj" ∧
    (downloadBinary wC4 none false stateEmpty).2.1.metadata =
      some ⟨"1.11.2", "2026-01-01T00:00:00.000Z", "2026-01-01T00:00:01.000Z",
        "download"⟩ ∧
    ("2026-01-01T00:00:00.000Z" : String) ≠ "2026-01-01T00:00:01.000Z" := by
  exact ⟨rfl, rfl, by decide⟩

/-- Witness for the amended C4 at a concrete successful install. -/
theorem claim_C4_witness :
    ∃ rel, selectedReleaseR wC4 none = Except.ok rel ∧
      (downloadBinary wC4 none false stateEmpty).2.1.metadata =
        some ⟨rel.version, wC4.now stateEmpty.clock, wC4.now (stateEmpty.clock + 1),
          "download"⟩ ∧
      (downloadBinary wC4 none false stateEmpty).2.1.cachedBinaryPath =
        some "/cache/pj" := by
  exact claim_C4_metadata_from_consecutive_clock_reads wC4 stateEmpty none false
    "/cache/pj" (downloadBinary wC4 none false stateEmpty).2.1
    (downloadBinary wC4 none false stateEmpty).2.2 rfl

/-! ## Claim C8 -/

theorem keepPure_fs {s s' : MState} (hfs : s'.fs = s.fs) (p : String) :
    keepPure s' p = keepPure s p := by
  unfold keepPure validPure versionPure
  rw [hfs]

theorem cacheBinPath_ne_empty (w : World) : cacheBinPath w ≠ "" := by
  unfold cacheBinPath getBinaryName
  split <;> intro h <;>
    (have hlen := congrArg String.length h
     simp [String.length_append] at hlen
     exact absurd hlen.1.2 (by decide))

/-- `download` never occurs in a validity-check trace. -/
theorem download_not_mem_validTrace (s : MState) (p : String) (u : String) :
    Effect.download u ∉ validTrace s p := by
  unfold validTrace
  split <;> simp

/-- `download` never occurs in a `getCachedBinaryPath` trace. -/
theorem download_not_mem_cachedTrace (w : World) (s : MState) (u : String) :
    Effect.download u ∉ cachedTrace w s := by
  simp only [cachedTrace]
  split_ifs <;> simp [download_not_mem_validTrace]

/-- When the cached metadata already names the best compatible version and a
valid, range-compatible cached binary exists, `updateBinary` without force
returns the cached path, rewrites the metadata changing only
`lastUpdateCheck`, and emits no download effect. -/
theorem updateBinary_upToDate (w : World) (s : MState) (rel : GithubRelease)
    (m : CacheMetadata)
    (hrel : getCompatibleReleaseR w = Except.ok rel)
    (hmeta : s.metadata = some m)
    (hver : m.version = rel.version)
    (hkeep : keepPure s (cacheBinPath w) = true)
    (hmem : s.cachedBinaryPath = none ∨ s.cachedBinaryPath = some (cacheBinPath w)) :
    ∃ t, updateBinary w none false s =
      (Except.ok (cacheBinPath w),
       { s with metadata := some { m with lastUpdateCheck := w.now s.clock },
                cachedBinaryPath := some (cacheBinPath w),
                clock := s.clock + 1 }, t) ∧
      ∀ u : String, Effect.download u ∉ t := by
  have hkeep2 : ∀ (c : Option String) (md : Option CacheMetadata) (k : Nat),
      keepPure ⟨c, md, s.fs, k⟩ (cacheBinPath w) = true := by
    intro c md k
    exact (keepPure_fs rfl (cacheBinPath w)).trans hkeep
  unfold updateBinary getCompatibleRelease getMetadata saveMetadata
  simp [hrel, hmeta, hver, run_getCachedBinaryPath]
  rcases hmem with hmem | hmem <;>
    simp [getCachedR, getCachedS, hmem, hkeep2,
      cacheBinPath_ne_empty, download_not_mem_cachedTrace]

/-- C8: when `updateBinary` runs without force, the cached metadata's
version equals the best currently-available compatible version, and a
valid, range-compatible cached binary exists, it performs no download and
rewrites the metadata changing only `lastUpdateCheck` (`version`,
`installedAt` and `source` are unchanged); an immediately repeated call
behaves the same, so no second download is performed. -/
theorem claim_C8_update_is_idempotent (w : World) (s : MState) (rel : GithubRelease)
    (m : CacheMetadata)
    (hrel : getCompatibleReleaseR w = Except.ok rel)
    (hmeta : s.metadata = some m)
    (hver : m.version = rel.version)
    (hkeep : keepPure s (cacheBinPath w) = true)
    (hmem : s.cachedBinaryPath = none ∨ s.cachedBinaryPath = some (cacheBinPath w)) :
    ((updateBinary w none false s).1 = Except.ok (cacheBinPath w) ∧
     (updateBinary w none false s).2.1.metadata =
       some { m with lastUpdateCheck := w.now s.clock } ∧
     (∀ u : String, Effect.download u ∉ (updateBinary w none false s).2.2)) ∧
    ((updateBinary w none false ((updateBinary w none false s).2.1)).1 =
       Except.ok (cacheBinPath w) ∧
     (updateBinary w none false ((updateBinary w none false s).2.1)).2.1.metadata =
       some { m with lastUpdateCheck := w.now (s.clock + 1) } ∧
     (∀ u : String, Effect.download u ∉
        (updateBinary w none false ((updateBinary w none false s).2.1)).2.2)) := by
  obtain ⟨t1, h1, hd1⟩ := updateBinary_upToDate w s rel m hrel hmeta hver hkeep hmem
  obtain ⟨t2, h2, hd2⟩ := updateBinary_upToDate w
    { s with metadata := some { m with lastUpdateCheck := w.now s.clock },
             cachedBinaryPath := some (cacheBinPath w), clock := s.clock + 1 }
    rel { m with lastUpdateCheck := w.now s.clock } hrel rfl hver
    ((keepPure_fs rfl (cacheBinPath w)).trans hkeep) (Or.inr rfl)
  refine ⟨⟨?_, ?_, ?_⟩, ?_, ?_, ?_⟩ <;> simp [h1, h2, hd1, hd2]

/-- World and state for the C8 witness: one compatible release in the
registry, metadata already at that version, and a valid cached binary. -/
def wC8 : World := { worldBase with releasesBody := Except.ok [rawCompatible] }

/-- A cache directory holding a valid 1.11.2 binary at the expected path. -/
def fsCache : FsState :=
  ⟨fun p => p = "/cache/pj",
   fun p => if p = "/cache/pj" then some "pj version 1.11.2" else none⟩

/-- State for the C8 witness. -/
def sC8 : MState := ⟨none, some ⟨"1.11.2", "A", "B", "download"⟩, fsCache, 0⟩

/-- Witness for C8 at a concrete world and state. -/
theorem claim_C8_witness :
    getCompatibleReleaseR wC8 = Except.ok (parseRelease rawCompatible) ∧
    keepPure sC8 (cacheBinPath wC8) = true ∧
    ((((updateBinary wC8 none false sC8).1 = Except.ok (cacheBinPath wC8) ∧
       (updateBinary wC8 none false sC8).2.1.metadata =
         some ⟨"1.11.2", "A", wC8.now sC8.clock, "download"⟩ ∧
       (∀ u : String, Effect.download u ∉ (updateBinary wC8 none false sC8).2.2)) ∧
      ((updateBinary wC8 none false ((updateBinary wC8 none false sC8).2.1)).1 =
         Except.ok (cacheBinPath wC8) ∧
       (updateBinary wC8 none false ((updateBinary wC8 none false sC8).2.1)).2.1.metadata =
         some ⟨"1.11.2", "A", wC8.now (sC8.clock + 1), "download"⟩ ∧
       (∀ u : String, Effect.download u ∉
          (updateBinary wC8 none false ((updateBinary wC8 none false sC8).2.1)).2.2)))) := by
  refine ⟨rfl, rfl, ?_⟩
  exact claim_C8_update_is_idempotent wC8 sC8 (parseRelease rawCompatible)
    ⟨"1.11.2", "A", "B", "download"⟩ rfl rfl rfl rfl (Or.inl rfl)

/-- Witness for C5: the maximality part applied at the specification's
concrete version list. -/
theorem claim_C5_witness :
    findHighestCompatibleVersion
      ["1.3.0", "1.4.0", "1.4.1", "1.4.2", "1.5.0", "2.0.0"] "1.4" = some "1.4.2" ∧
    ("1.4.2" ∈ List.filter (fun v => isVersionCompatible v "1.4")
        ["1.3.0", "1.4.0", "1.4.1", "1.4.2", "1.5.0", "2.0.0"] ∧
     ∀ v ∈ List.filter (fun v => isVersionCompatible v "1.4")
        ["1.3.0", "1.4.0", "1.4.1", "1.4.2", "1.5.0", "2.0.0"],
       0 ≤ compareVersions "1.4.2" v) := by
  refine ⟨rfl, ?_⟩
  exact claim_C5_selectHighestCompatible.2.1
    ["1.3.0", "1.4.0", "1.4.1", "1.4.2", "1.5.0", "2.0.0"] "1.4" "1.4.2" rfl

/-- Witness for C6: each conjunct applied at concrete version strings. -/
theorem claim_C6_witness :
    compareVersions "not-a-version" "1.2.3" = 0 ∧
    compareVersions "1.2.3" "1.2.3" = 0 ∧
    compareVersions "1.2.3" "2.0.0" = -(compareVersions "2.0.0" "1.2.3") ∧
    compareVersions "1.2.3" "1.3.0" < 0 ∧
    (compareVersions "1.2.3" "1.2.4" < 0 ↔
      (1 < 1 ∨ (1 = 1 ∧ (2 < 2 ∨ (2 = 2 ∧ 3 < 4))))) := by
  refine ⟨?_, ?_, ?_, ?_, ?_⟩
  · exact claim_C6_compareVersions_weak_order.1 "not-a-version" "1.2.3" (Or.inl rfl)
  · exact claim_C6_compareVersions_weak_order.2.1 "1.2.3" rfl
  · exact claim_C6_compareVersions_weak_order.2.2.1 "1.2.3" "2.0.0" rfl rfl
  · exact claim_C6_compareVersions_weak_order.2.2.2.1 "1.2.3" "1.2.4" "1.3.0"
      rfl rfl rfl (by decide) (by decide)
  · exact claim_C6_compareVersions_weak_order.2.2.2.2 "1.2.3" "1.2.4"
      ⟨1, 2, 3, "1.2.3"⟩ ⟨1, 2, 4, "1.2.4"⟩ rfl rfl

end PjNode
